import Mathlib

/-!
Verification of the `arboretum` binary search tree (`src/search/bst.rs`).

Two embeddings of the node graph are used:

* `Tree` — a value-level functional model of the node graph, dropping the
  parent back-references (which never influence `deep_insert` / `deep_find` /
  `deep_contains` / `deep_delete`).  `Bst` mirrors the public wrapper.
* `ITree` — the node graph with `Rc` pointer identities (`id : Nat`) and the
  weak parent back-reference (`parent : Option Nat`), for the
  parent-consistency claims about `deep_insert`.
* `BstH` / `HNode` — an id-addressed heap model for `shift_nodes`, where the
  `Weak::upgrade` of the parent back-reference is a heap lookup that may fail.
-/

namespace Arboretum

/-- Value-level model of `Node<V>`: `left` / `right` optional children are the
`nil` constructor, the stored `value` in between.  The non-owning `parent`
back-reference is dropped here (it is never read by insert/find/contains). -/
inductive Tree (V : Type) where
  | nil : Tree V
  | node (value : V) (left : Tree V) (right : Tree V) : Tree V
  deriving DecidableEq

variable {V : Type} [LinearOrder V]

/-- Model of `Node::root_link`: a fresh node with no parent and no children. -/
def Node.root_link (value : V) : Tree V :=
  Tree.node value Tree.nil Tree.nil

/-- Model of `Bst<V>`: the wrapper holding the optional root
(`root = Tree.nil` encodes `None`). -/
structure Bst (V : Type) where
  root : Tree V
  deriving DecidableEq

/-- Model of `Bst::empty`. -/
def Bst.empty : Bst V := ⟨Tree.nil⟩

/-- Model of `deep_insert`: at a node, `mut_node.value <= value` descends LEFT
(recursing when the left child exists, attaching a fresh leaf otherwise — the
`nil` case below is that attachment), else symmetric on the right. -/
def deep_insert : Tree V → V → Tree V
  | Tree.nil, value => Tree.node value Tree.nil Tree.nil
  | Tree.node v l r, value =>
    if v ≤ value then Tree.node v (deep_insert l value) r
    else Tree.node v l (deep_insert r value)

/-- Model of `Bst::insert`: empty tree gets `Node::root_link value` as root,
otherwise delegate to `deep_insert` on the root. -/
def Bst.insert (b : Bst V) (value : V) : Bst V :=
  match b.root with
  | Tree.node v l r => ⟨deep_insert (Tree.node v l r) value⟩
  | Tree.nil => ⟨Node.root_link value⟩

/-- Model of `deep_find`: equality succeeds at the node; `node.value < value`
descends left, otherwise right; an absent required child yields `none`. -/
def deep_find : Tree V → V → Option (Tree V)
  | Tree.nil, _ => none
  | Tree.node v l r, value =>
    if v = value then some (Tree.node v l r)
    else if v < value then deep_find l value
    else deep_find r value

/-- Model of `deep_contains`: `deep_find` then a match collapsing to a `Bool`. -/
def deep_contains (t : Tree V) (value : V) : Bool :=
  match deep_find t value with
  | none => false
  | some _ => true

/-- Model of `Bst::contains`. -/
def Bst.contains (b : Bst V) (value : V) : Bool :=
  match b.root with
  | Tree.nil => false
  | Tree.node v l r => deep_contains (Tree.node v l r) value

/-- Model of `deep_delete`: the source function body is empty, so the state is
returned unchanged. -/
def deep_delete (b : Bst V) (_value : V) : Bst V := b

/-- Model of `Bst::remove`. -/
def Bst.remove (b : Bst V) (value : V) : Bst V :=
  match b.root with
  | Tree.nil => b
  | Tree.node _ _ _ => deep_delete b value

/-- In-order traversal of the value-level tree (the spec's metric for the
global ordering invariant). -/
def inorder : Tree V → List V
  | Tree.nil => []
  | Tree.node v l r => inorder l ++ v :: inorder r

/-- Height of the value-level tree (empty tree has height 0). -/
def height : Tree V → Nat
  | Tree.nil => 0
  | Tree.node _ l r => max (height l) (height r) + 1

/-- A sequence of public mutating operations on the tree. -/
inductive Op (V : Type) where
  | ins (value : V) : Op V
  | rem (value : V) : Op V

/-- Run one public operation. -/
def applyOp (b : Bst V) : Op V → Bst V
  | Op.ins value => b.insert value
  | Op.rem value => b.remove value

/-- Run a sequence of public operations starting from the empty tree. -/
def applyOps (ops : List (Op V)) : Bst V :=
  ops.foldl applyOp Bst.empty

/-- Insert a list of values, in order, starting from the empty tree. -/
def insertList (vs : List V) : Bst V :=
  vs.foldl Bst.insert Bst.empty

/-- A predicate holds at every node of a tree. -/
inductive ForallTree (p : V → Prop) : Tree V → Prop where
  | nil : ForallTree p Tree.nil
  | node {v : V} {l r : Tree V} :
      ForallTree p l → p v → ForallTree p r → ForallTree p (Tree.node v l r)

/-- The ordering invariant that `deep_insert` actually establishes: since
`node.value <= value` sends `value` to the LEFT, the left subtree holds values
`≥ v` and the right subtree holds values `< v`, at every node. -/
inductive Ordered : Tree V → Prop where
  | nil : Ordered Tree.nil
  | node {v : V} {l r : Tree V} :
      ForallTree (fun x => v ≤ x) l → ForallTree (fun x => x < v) r →
      Ordered l → Ordered r → Ordered (Tree.node v l r)

theorem forallTree_insert {p : V → Prop} {t : Tree V} {value : V}
    (h : ForallTree p t) (hv : p value) : ForallTree p (deep_insert t value) := by
  induction h with
  | nil => exact ForallTree.node ForallTree.nil hv ForallTree.nil
  | @node v l r hl hp hr ihl ihr =>
    rw [deep_insert]
    by_cases hle : v ≤ value
    · rw [if_pos hle]; exact ForallTree.node ihl hp hr
    · rw [if_neg hle]; exact ForallTree.node hl hp ihr

theorem ordered_insert {t : Tree V} (h : Ordered t) (value : V) :
    Ordered (deep_insert t value) := by
  induction h with
  | nil => exact Ordered.node ForallTree.nil ForallTree.nil Ordered.nil Ordered.nil
  | @node v l r hl hr ol orr ihl ihr =>
    rw [deep_insert]
    by_cases hle : v ≤ value
    · rw [if_pos hle]
      exact Ordered.node (forallTree_insert hl hle) hr ihl orr
    · rw [if_neg hle]
      exact Ordered.node hl (forallTree_insert hr (not_le.mp hle)) ol ihr

omit [LinearOrder V] in
theorem forallTree_mem {p : V → Prop} {t : Tree V} {x : V}
    (h : ForallTree p t) (hx : x ∈ inorder t) : p x := by
  induction h with
  | nil => simp [inorder] at hx
  | @node v l r hl hp hr ihl ihr =>
    simp only [inorder, List.mem_append, List.mem_cons] at hx
    rcases hx with h1 | h2 | h3
    · exact ihl h1
    · exact h2 ▸ hp
    · exact ihr h3

theorem mem_inorder_insert {t : Tree V} {value x : V} :
    x ∈ inorder (deep_insert t value) ↔ x = value ∨ x ∈ inorder t := by
  induction t with
  | nil => simp [deep_insert, inorder]
  | node v l r ihl ihr =>
    rw [deep_insert]
    by_cases hle : v ≤ value
    · rw [if_pos hle]
      simp only [inorder, List.mem_append, List.mem_cons, ihl]
      tauto
    · rw [if_neg hle]
      simp only [inorder, List.mem_append, List.mem_cons, ihr]
      tauto

theorem deep_contains_eq_isSome (t : Tree V) (value : V) :
    deep_contains t value = (deep_find t value).isSome := by
  rw [deep_contains]
  cases deep_find t value <;> rfl

theorem deep_find_isSome_iff {t : Tree V} (h : Ordered t) (value : V) :
    (deep_find t value).isSome = true ↔ value ∈ inorder t := by
  induction h with
  | nil => simp [deep_find, inorder]
  | @node v l r hl hr ol orr ihl ihr =>
    rw [deep_find]
    by_cases heq : v = value
    · subst heq
      simp [inorder]
    · rw [if_neg heq]
      by_cases hlt : v < value
      · rw [if_pos hlt]
        rw [ihl]
        simp only [inorder, List.mem_append, List.mem_cons]
        constructor
        · exact fun hm => Or.inl hm
        · rintro (hm | rfl | hm)
          · exact hm
          · exact absurd rfl heq
          · exact absurd (forallTree_mem hr hm) (not_lt.mpr (le_of_lt hlt))
      · rw [if_neg hlt]
        rw [ihr]
        have hvlt : value < v := lt_of_le_of_ne (not_lt.mp hlt) (fun he => heq he.symm)
        simp only [inorder, List.mem_append, List.mem_cons]
        constructor
        · exact fun hm => Or.inr (Or.inr hm)
        · rintro (hm | rfl | hm)
          · exact absurd hvlt (not_lt.mpr (forallTree_mem hl hm))
          · exact absurd rfl heq
          · exact hm

theorem deep_contains_iff {t : Tree V} (h : Ordered t) (value : V) :
    deep_contains t value = true ↔ value ∈ inorder t := by
  rw [deep_contains_eq_isSome, deep_find_isSome_iff h]

theorem bst_insert_eq (b : Bst V) (value : V) :
    b.insert value = ⟨deep_insert b.root value⟩ := by
  obtain ⟨root⟩ := b
  cases root <;> rfl

theorem bst_contains_eq (b : Bst V) (value : V) :
    b.contains value = deep_contains b.root value := by
  obtain ⟨root⟩ := b
  cases root <;> rfl

omit [LinearOrder V] in
theorem bst_remove_eq (b : Bst V) (value : V) : b.remove value = b := by
  obtain ⟨root⟩ := b
  cases root <;> rfl

theorem applyOp_root (b : Bst V) (op : Op V) :
    (applyOp b op).root = match op with
      | Op.ins value => deep_insert b.root value
      | Op.rem _ => b.root := by
  cases op with
  | ins value => rw [applyOp, bst_insert_eq]
  | rem value => rw [applyOp, bst_remove_eq]

theorem ordered_foldl_applyOp {b : Bst V} (h : Ordered b.root) (ops : List (Op V)) :
    Ordered (ops.foldl applyOp b).root := by
  induction ops generalizing b with
  | nil => exact h
  | cons op ops ih =>
    rw [List.foldl_cons]
    apply ih
    rw [applyOp_root]
    cases op with
    | ins value => exact ordered_insert h value
    | rem value => exact h

theorem ordered_applyOps (ops : List (Op V)) : Ordered (applyOps ops).root :=
  ordered_foldl_applyOp Ordered.nil ops

theorem mem_inorder_foldl_insert (vs : List V) (t : Tree V) (x : V) :
    x ∈ inorder (vs.foldl deep_insert t) ↔ x ∈ inorder t ∨ x ∈ vs := by
  induction vs generalizing t with
  | nil => simp
  | cons v vs ih =>
    rw [List.foldl_cons, ih, mem_inorder_insert]
    simp only [List.mem_cons]
    tauto

theorem insertList_root (vs : List V) :
    (insertList vs).root = vs.foldl deep_insert Tree.nil := by
  suffices h : ∀ (b : Bst V), (vs.foldl Bst.insert b).root = vs.foldl deep_insert b.root by
    exact h Bst.empty
  induction vs with
  | nil => intro b; rfl
  | cons v vs ih =>
    intro b
    rw [List.foldl_cons, List.foldl_cons, ih, bst_insert_eq]

theorem ordered_insertList (vs : List V) : Ordered (insertList vs).root := by
  rw [insertList_root]
  suffices h : ∀ (t : Tree V), Ordered t → Ordered (vs.foldl deep_insert t) by
    exact h Tree.nil Ordered.nil
  induction vs with
  | nil => exact fun t ht => ht
  | cons v vs ih =>
    intro t ht
    rw [List.foldl_cons]
    exact ih _ (ordered_insert ht v)

theorem ordered_inorder_pairwise {t : Tree V} (h : Ordered t) :
    List.Pairwise (fun a b => b ≤ a) (inorder t) := by
  induction h with
  | nil => simp [inorder]
  | @node v l r hl hr ol orr ihl ihr =>
    rw [inorder, List.pairwise_append]
    refine ⟨ihl, ?_, ?_⟩
    · rw [List.pairwise_cons]
      refine ⟨fun b hb => ?_, ihr⟩
      have hbv := forallTree_mem hr hb
      exact le_of_lt hbv
    · intro a ha b hb
      have hva := forallTree_mem hl ha
      rcases List.mem_cons.mp hb with rfl | hbr
      · exact hva
      · have hbv := forallTree_mem hr hbr
        exact le_trans (le_of_lt hbv) hva

/-- C1: the claim states that after `remove(v)` on a tree containing exactly
one node equal to `v`, `contains(v)` is false.  The source's `deep_delete` has
an empty body, so `remove` never deletes anything: on the failing input
`insert(5); remove(5)`, `contains(5)` still evaluates to `true`, contradicting
the repository's own test `bst_does_not_contain_item_removed_from_it`, which
asserts it is `false`. -/
theorem remove_after_single_insert_still_contains :
    (((Bst.empty : Bst Nat).insert 5).remove 5).contains 5 = true := by
  decide

/-- C2: `contains(v)` is true exactly when some stored value equals `v`, for
every tree state reachable through the public operations (first conjunct,
stated over arbitrary insert/remove sequences with "stored" read off the
in-order traversal); in particular after any sequence of insertions
`contains` is true precisely for the values inserted so far (second
conjunct). -/
theorem contains_iff_stored :
    (∀ (ops : List (Op V)) (v : V),
        (applyOps ops).contains v = true ↔ v ∈ inorder (applyOps ops).root) ∧
    (∀ (vs : List V) (v : V),
        (insertList vs).contains v = decide (v ∈ vs)) := by
  constructor
  · intro ops v
    rw [bst_contains_eq]
    exact deep_contains_iff (ordered_applyOps ops) v
  · intro vs v
    have h1 : (insertList vs).contains v = true ↔ v ∈ vs := by
      rw [bst_contains_eq, deep_contains_iff (ordered_insertList vs) v,
        insertList_root, mem_inorder_foldl_insert]
      simp [inorder]
    by_cases hm : v ∈ vs
    · rw [decide_eq_true hm]
      exact h1.mpr hm
    · rw [decide_eq_false hm]
      cases hc : (insertList vs).contains v
      · rfl
      · exact absurd (h1.mp hc) hm

/-- C7: after any sequence of inserts and removes from the empty tree, the
in-order traversal is monotonic under the code's single comparison rule.
Since `deep_insert` sends `node.value <= value` to the LEFT, the traversal is
non-increasing (each later element is `≤` every earlier one). -/
theorem inorder_applyOps_sorted (ops : List (Op V)) :
    List.Pairwise (fun a b => b ≤ a) (inorder (applyOps ops).root) :=
  ordered_inorder_pairwise (ordered_applyOps ops)

/-- C8: `remove(v)` on a tree whose `contains(v)` is false is a structural
no-op (the state is returned unchanged, as `deep_delete` has an empty body),
and so every `contains(x)` query afterwards returns exactly what it returned
before. -/
theorem remove_absent_noop (b : Bst V) (v : V) (_h : b.contains v = false) :
    b.remove v = b ∧ ∀ x : V, (b.remove v).contains x = b.contains x := by
  refine ⟨bst_remove_eq b v, fun x => ?_⟩
  rw [bst_remove_eq]

theorem remove_absent_noop_witness :
    ((Bst.empty : Bst Nat).insert 3).contains 7 = false ∧
    ((Bst.empty : Bst Nat).insert 3).remove 7 = (Bst.empty : Bst Nat).insert 3 ∧
    (((Bst.empty : Bst Nat).insert 3).remove 7).contains 3 =
      ((Bst.empty : Bst Nat).insert 3).contains 3 :=
  ⟨by decide,
   (remove_absent_noop ((Bst.empty : Bst Nat).insert 3) 7 (by decide)).1,
   (remove_absent_noop ((Bst.empty : Bst Nat).insert 3) 7 (by decide)).2 3⟩

/-- Node graph with `Rc` pointer identities: each node carries its cell id and
the weak parent back-reference as the id it points to, next to the owned
children and the stored value (mirroring the field list of `Node<V>`). -/
inductive ITree (V : Type) where
  | nil : ITree V
  | node (id : Nat) (parent : Option Nat) (left : ITree V) (value : V) (right : ITree V) :
      ITree V
  deriving DecidableEq

/-- Model of `Node::root_link` in the identity-carrying graph: fresh cell, no
parent, no children. -/
def NodeI.root_link (fresh : Nat) (value : V) : ITree V :=
  ITree.node fresh none ITree.nil value ITree.nil

/-- Model of `Node::link`: fresh cell whose parent back-reference is set to
the given parent id (`Rc::downgrade(node)` of the current node). -/
def NodeI.link (fresh : Nat) (parentId : Nat) (value : V) : ITree V :=
  ITree.node fresh (some parentId) ITree.nil value ITree.nil

/-- Model of `deep_insert` over the identity-carrying graph: same descent as
`deep_insert`, attaching `Node::link` (parented to the current node) when the
chosen child is absent.  `fresh` is the id of the `Rc` cell the attachment
allocates. -/
def deep_insertI (fresh : Nat) : ITree V → V → ITree V
  | ITree.nil, _ => ITree.nil
  | ITree.node i p l v r, value =>
    if v ≤ value then
      match l with
      | ITree.nil => ITree.node i p (NodeI.link fresh i value) v r
      | ITree.node j q la w ra =>
          ITree.node i p (deep_insertI fresh (ITree.node j q la w ra) value) v r
    else
      match r with
      | ITree.nil => ITree.node i p l v (NodeI.link fresh i value)
      | ITree.node j q la w ra =>
          ITree.node i p l v (deep_insertI fresh (ITree.node j q la w ra) value)

/-- Model of `Bst<V>` over the identity-carrying graph. -/
structure BstI (V : Type) where
  root : Option (ITree V)
  deriving DecidableEq

/-- Model of `Bst::insert` over the identity-carrying graph. -/
def BstI.insert (b : BstI V) (fresh : Nat) (value : V) : BstI V :=
  match b.root with
  | some t => ⟨some (deep_insertI fresh t value)⟩
  | none => ⟨some (NodeI.root_link fresh value)⟩

/-- Model of `deep_delete` over the identity-carrying graph (the source body
is empty). -/
def deep_deleteI (b : BstI V) (_value : V) : BstI V := b

/-- Model of `Bst::remove` over the identity-carrying graph. -/
def BstI.remove (b : BstI V) (value : V) : BstI V :=
  match b.root with
  | none => b
  | some _ => deep_deleteI b value

/-- A child's parent back-reference resolves to the node it hangs under. -/
def childParentOk (i : Nat) : ITree V → Bool
  | ITree.nil => true
  | ITree.node _ p _ _ _ => p == some i

/-- Parent consistency: at every node, both children's back-references point
back to that node's id. -/
def parentConsistent : ITree V → Bool
  | ITree.nil => true
  | ITree.node i _ l _ r =>
      childParentOk i l && childParentOk i r && parentConsistent l && parentConsistent r

/-- Parent consistency of the whole wrapper (empty tree is consistent). -/
def bstParentConsistent (b : BstI V) : Bool :=
  match b.root with
  | none => true
  | some t => parentConsistent t

theorem deep_insertI_node_shape (fresh j : Nat) (q : Option Nat) (la : ITree V) (w : V)
    (ra : ITree V) (value : V) :
    ∃ la2 ra2, deep_insertI fresh (ITree.node j q la w ra) value = ITree.node j q la2 w ra2 := by
  rw [deep_insertI.eq_def]
  dsimp only
  by_cases hle : w ≤ value
  · rw [if_pos hle]
    cases la with
    | nil => exact ⟨_, _, rfl⟩
    | node j2 q2 la2 w2 ra2 => exact ⟨_, _, rfl⟩
  · rw [if_neg hle]
    cases ra with
    | nil => exact ⟨_, _, rfl⟩
    | node j2 q2 la2 w2 ra2 => exact ⟨_, _, rfl⟩

theorem parentConsistent_deep_insertI (fresh : Nat) (value : V) (t : ITree V)
    (h : parentConsistent t = true) :
    parentConsistent (deep_insertI fresh t value) = true := by
  induction t with
  | nil => rfl
  | node i p l v r ihl ihr =>
    rw [parentConsistent] at h
    simp only [Bool.and_eq_true] at h
    obtain ⟨⟨⟨hcl, hcr⟩, hpl⟩, hpr⟩ := h
    rw [deep_insertI.eq_def]
    dsimp only
    by_cases hle : v ≤ value
    · rw [if_pos hle]
      cases l with
      | nil =>
        rw [parentConsistent]
        simp only [Bool.and_eq_true]
        exact ⟨⟨⟨by simp [NodeI.link, childParentOk], hcr⟩, by rfl⟩, hpr⟩
      | node j q la w ra =>
        dsimp only
        obtain ⟨la2, ra2, heq⟩ := deep_insertI_node_shape fresh j q la w ra value
        have hins := ihl hpl
        rw [heq] at hins
        rw [heq, parentConsistent]
        simp only [Bool.and_eq_true]
        exact ⟨⟨⟨hcl, hcr⟩, hins⟩, hpr⟩
    · rw [if_neg hle]
      cases r with
      | nil =>
        rw [parentConsistent]
        simp only [Bool.and_eq_true]
        exact ⟨⟨⟨hcl, by simp [NodeI.link, childParentOk]⟩, hpl⟩, by rfl⟩
      | node j q la w ra =>
        dsimp only
        obtain ⟨la2, ra2, heq⟩ := deep_insertI_node_shape fresh j q la w ra value
        have hins := ihr hpr
        rw [heq] at hins
        rw [heq, parentConsistent]
        simp only [Bool.and_eq_true]
        exact ⟨⟨⟨hcl, hcr⟩, hpl⟩, hins⟩

/-- C6: insertion preserves parent consistency: starting from any wrapper in
which every child's back-reference points to its parent, after
`insert(value)` (modelled with an explicit fresh cell id) the property still
holds at every node, including the newly attached leaf, whose back-reference
(`Node::link`) is set to the node it was attached under. -/
theorem insert_preserves_parentConsistent (b : BstI V) (fresh : Nat) (value : V)
    (h : bstParentConsistent b = true) :
    bstParentConsistent (b.insert fresh value) = true := by
  obtain ⟨root⟩ := b
  cases root with
  | none =>
    simp [BstI.insert, bstParentConsistent, NodeI.root_link, parentConsistent, childParentOk]
  | some t =>
    rw [bstParentConsistent] at h
    exact parentConsistent_deep_insertI fresh value t h

theorem insert_preserves_parentConsistent_witness :
    bstParentConsistent (⟨some (ITree.node 0 none ITree.nil 10 ITree.nil)⟩ : BstI Nat) = true ∧
    bstParentConsistent
      ((⟨some (ITree.node 0 none ITree.nil 10 ITree.nil)⟩ : BstI Nat).insert 1 20) = true :=
  ⟨by decide,
   insert_preserves_parentConsistent
     (⟨some (ITree.node 0 none ITree.nil 10 ITree.nil)⟩ : BstI Nat) 1 20 (by decide)⟩

/-- C10: `remove` never modifies the tree.  `deep_delete` has an empty body,
so at both the value level and the identity-carrying level (values, children
and parent back-references included) the state after `remove(v)` equals the
state before, and every later `contains` query answers as before. -/
theorem remove_is_identity (b : Bst V) (bi : BstI V) (v : V) :
    b.remove v = b ∧ (∀ x : V, (b.remove v).contains x = b.contains x) ∧
    bi.remove v = bi := by
  refine ⟨bst_remove_eq b v, fun x => by rw [bst_remove_eq], ?_⟩
  obtain ⟨root⟩ := bi
  cases root <;> rfl

/-- Fuel-indexed `deep_insert`: each recursive descent into an existing child
consumes one unit of recursion depth; attaching at an absent child happens
inside the parent's call in the source and consumes none.  `none` signals the
depth budget ran out. -/
def deep_insertFuel : Nat → Tree V → V → Option (Tree V)
  | _, Tree.nil, value => some (Tree.node value Tree.nil Tree.nil)
  | 0, Tree.node _ _ _, _ => none
  | fuel + 1, Tree.node v l r, value =>
    if v ≤ value then (deep_insertFuel fuel l value).map (fun l2 => Tree.node v l2 r)
    else (deep_insertFuel fuel r value).map (fun r2 => Tree.node v l r2)

/-- Fuel-indexed `deep_find` (same depth accounting as `deep_insertFuel`). -/
def deep_findFuel : Nat → Tree V → V → Option (Option (Tree V))
  | _, Tree.nil, _ => some none
  | 0, Tree.node _ _ _, _ => none
  | fuel + 1, Tree.node v l r, value =>
    if v = value then some (some (Tree.node v l r))
    else if v < value then deep_findFuel fuel l value
    else deep_findFuel fuel r value

/-- Fuel-indexed `Bst::insert`. -/
def Bst.insertFuel (fuel : Nat) (b : Bst V) (value : V) : Option (Bst V) :=
  match b.root with
  | Tree.node v l r => (deep_insertFuel fuel (Tree.node v l r) value).map Bst.mk
  | Tree.nil => some ⟨Node.root_link value⟩

/-- Fuel-indexed `Bst::contains` (`deep_contains` is `deep_find` then a
boolean match, which adds no recursion). -/
def Bst.containsFuel (fuel : Nat) (b : Bst V) (value : V) : Option Bool :=
  match b.root with
  | Tree.nil => some false
  | Tree.node v l r =>
      (deep_findFuel fuel (Tree.node v l r) value).map (fun res =>
        match res with
        | none => false
        | some _ => true)

/-- Fuel-indexed `Bst::remove` (`deep_delete` makes no recursive calls at
all, so no fuel is ever consumed). -/
def Bst.removeFuel (_fuel : Nat) (b : Bst V) (value : V) : Option (Bst V) :=
  match b.root with
  | Tree.nil => some b
  | Tree.node _ _ _ => some (deep_delete b value)

theorem deep_insertFuel_eq {fuel : Nat} {t : Tree V} (h : height t ≤ fuel) (value : V) :
    deep_insertFuel fuel t value = some (deep_insert t value) := by
  induction t generalizing fuel with
  | nil => cases fuel <;> rfl
  | node v l r ihl ihr =>
    rw [height] at h
    cases fuel with
    | zero => omega
    | succ f =>
      rw [deep_insertFuel, deep_insert]
      by_cases hle : v ≤ value
      · rw [if_pos hle, if_pos hle, ihl (show height l ≤ f by omega)]
        rfl
      · rw [if_neg hle, if_neg hle, ihr (show height r ≤ f by omega)]
        rfl

theorem deep_findFuel_eq {fuel : Nat} {t : Tree V} (h : height t ≤ fuel) (value : V) :
    deep_findFuel fuel t value = some (deep_find t value) := by
  induction t generalizing fuel with
  | nil => cases fuel <;> rfl
  | node v l r ihl ihr =>
    rw [height] at h
    cases fuel with
    | zero => omega
    | succ f =>
      rw [deep_findFuel, deep_find]
      by_cases heq : v = value
      · rw [if_pos heq, if_pos heq]
      · rw [if_neg heq, if_neg heq]
        by_cases hlt : v < value
        · rw [if_pos hlt, if_pos hlt, ihl (show height l ≤ f by omega)]
        · rw [if_neg hlt, if_neg hlt, ihr (show height r ≤ f by omega)]

/-- C9: every public operation terminates on every finite tree within a
recursion-depth budget equal to the height of the tree: with `fuel` at least
`height`, the fuel-indexed versions of insert, contains and remove never run
out and compute exactly what the unbounded recursions compute (`remove`
recurses zero levels, its `deep_delete` body being empty). -/
theorem ops_terminate_with_height_fuel (fuel : Nat) (b : Bst V) (value : V)
    (h : height b.root ≤ fuel) :
    Bst.insertFuel fuel b value = some (b.insert value) ∧
    Bst.containsFuel fuel b value = some (b.contains value) ∧
    Bst.removeFuel fuel b value = some (b.remove value) := by
  obtain ⟨root⟩ := b
  cases root with
  | nil => exact ⟨rfl, rfl, rfl⟩
  | node v l r =>
    dsimp only at h
    refine ⟨?_, ?_, rfl⟩
    · show (deep_insertFuel fuel (Tree.node v l r) value).map Bst.mk =
        some (⟨deep_insert (Tree.node v l r) value⟩ : Bst V)
      rw [deep_insertFuel_eq h value]
      rfl
    · show (deep_findFuel fuel (Tree.node v l r) value).map (fun res =>
          match res with
          | none => false
          | some _ => true) =
        some (deep_contains (Tree.node v l r) value)
      rw [deep_findFuel_eq h value, deep_contains]
      cases deep_find (Tree.node v l r) value <;> rfl

theorem ops_terminate_with_height_fuel_witness :
    height ((Bst.empty : Bst Nat).insert 5 |>.insert 3).root ≤ 2 ∧
    Bst.insertFuel 2 ((Bst.empty : Bst Nat).insert 5 |>.insert 3) 4 =
      some (((Bst.empty : Bst Nat).insert 5 |>.insert 3).insert 4) ∧
    Bst.containsFuel 2 ((Bst.empty : Bst Nat).insert 5 |>.insert 3) 4 =
      some (((Bst.empty : Bst Nat).insert 5 |>.insert 3).contains 4) ∧
    Bst.removeFuel 2 ((Bst.empty : Bst Nat).insert 5 |>.insert 3) 4 =
      some (((Bst.empty : Bst Nat).insert 5 |>.insert 3).remove 4) :=
  ⟨by decide,
   ops_terminate_with_height_fuel 2 ((Bst.empty : Bst Nat).insert 5 |>.insert 3) 4 (by decide)⟩

/-- Heap-cell model of `Node<V>` for `shift_nodes`: the children and the weak
parent back-reference are cell ids; resolving the parent (`Weak::upgrade`) is
a heap lookup that can fail. -/
structure HNode (V : Type) where
  parent : Option Nat
  left : Option Nat
  right : Option Nat
  value : V
  deriving DecidableEq

/-- The store of live `Rc` cells, addressed by id. -/
abbrev Heap (V : Type) := List (Nat × HNode V)

/-- Look a cell up by id (`Weak::upgrade` succeeds iff this is `some`). -/
def heapLookup : Heap V → Nat → Option (HNode V)
  | [], _ => none
  | (j, n) :: rest, i => if j = i then some n else heapLookup rest i

/-- Overwrite the `left` slot of the cell with the given id. -/
def heapSetLeft (h : Heap V) (i : Nat) (c : Option Nat) : Heap V :=
  h.map (fun e => if e.1 = i then (e.1, { e.2 with left := c }) else e)

/-- Overwrite the `right` slot of the cell with the given id. -/
def heapSetRight (h : Heap V) (i : Nat) (c : Option Nat) : Heap V :=
  h.map (fun e => if e.1 = i then (e.1, { e.2 with right := c }) else e)

/-- Overwrite the `parent` back-reference of the cell with the given id. -/
def heapSetParent (h : Heap V) (i : Nat) (p : Option Nat) : Heap V :=
  h.map (fun e => if e.1 = i then (e.1, { e.2 with parent := p }) else e)

/-- Model of `Bst<V>` at the heap level: the store plus the root slot. -/
structure BstH (V : Type) where
  heap : Heap V
  root : Option Nat
  deriving DecidableEq

/-- Outcome of `shift_nodes`: either the updated state, or the fatal
assertion (`panic!`) message. -/
inductive ShiftResult (V : Type) where
  | ok (bst : BstH V) : ShiftResult V
  | panic (msg : String) : ShiftResult V
  deriving DecidableEq

/-- The source's fatal-assertion message for an orphan node. -/
def orphanMsg : String :=
  "Weird Bst structure detected. Found an orphan node"

/-- Model of `shift_nodes`, following the source's control flow statement by
statement.  `aId` is the `Rc` identity of `node_a` (used by `Rc::ptr_eq`),
`na` its borrowed contents, `b` the optional replacement subtree id.  Note
the early returns: after a parent slot is overwritten, the trailing
fix-Node-B block is never reached; it runs only on the fall-through path
where the parent has a left child that is not `node_a`. -/
def shift_nodes (bst : BstH V) (aId : Nat) (na : HNode V) (b : Option Nat) :
    ShiftResult V :=
  match na.parent with
  | none => ShiftResult.ok { bst with root := b }
  | some pWeak =>
    match heapLookup bst.heap pWeak with
    | none => ShiftResult.panic orphanMsg
    | some np =>
      match np.left with
      | some leftId =>
        if aId = leftId then
          ShiftResult.ok { bst with heap := heapSetLeft bst.heap pWeak b }
        else
          match b with
          | none => ShiftResult.ok bst
          | some bId =>
              ShiftResult.ok { bst with heap := heapSetParent bst.heap bId (some pWeak) }
      | none => ShiftResult.ok { bst with heap := heapSetRight bst.heap pWeak b }

/-- C3: the claim says transplant always overwrites exactly the parent slot
that `a` occupies.  But when `a` is its parent's RIGHT child while the parent
also has a left child (necessarily distinct from `a` by `Rc::ptr_eq`), the
source falls through both slot-rewriting branches and overwrites nothing.
Concretely: node 0 has left child 2 and right child 1; transplanting `a` =
node 1 with `b = None` returns the state completely unchanged — node 0's
right slot still references node 1, where the claim requires it be emptied. -/
theorem shift_nodes_right_child_slot_not_overwritten :
    shift_nodes (V := Nat)
        ⟨[(0, ⟨none, some 2, some 1, 10⟩), (1, ⟨some 0, none, none, 5⟩),
          (2, ⟨some 0, none, none, 20⟩)], some 0⟩
        1 ⟨some 0, none, none, 5⟩ none =
      ShiftResult.ok
        ⟨[(0, ⟨none, some 2, some 1, 10⟩), (1, ⟨some 0, none, none, 5⟩),
          (2, ⟨some 0, none, none, 20⟩)], some 0⟩ := by
  decide

/-- C4: the claim says that whenever `b` is present its parent back-reference
is rewritten to `a`'s former parent.  But the source's fix-Node-B block sits
after `return` statements in both slot-rewriting branches, so when `a` is its
parent's left child the slot is overwritten and the function returns with
`b`'s back-reference untouched.  Concretely: parent 0 has left child `a` = 1,
and `b` = 2 (previously under 1); after the call node 0's left slot holds 2,
yet node 2's parent back-reference still says 1 instead of 0. -/
theorem shift_nodes_left_case_b_parent_unchanged :
    shift_nodes (V := Nat)
        ⟨[(0, ⟨none, some 1, none, 10⟩), (1, ⟨some 0, none, some 2, 20⟩),
          (2, ⟨some 1, none, none, 15⟩)], some 0⟩
        1 ⟨some 0, none, some 2, 20⟩ (some 2) =
      ShiftResult.ok
        ⟨[(0, ⟨none, some 2, none, 10⟩), (1, ⟨some 0, none, some 2, 20⟩),
          (2, ⟨some 1, none, none, 15⟩)], some 0⟩ ∧
    heapLookup
        (heapSetLeft (V := Nat)
          [(0, ⟨none, some 1, none, 10⟩), (1, ⟨some 0, none, some 2, 20⟩),
           (2, ⟨some 1, none, none, 15⟩)] 0 (some 2)) 2 =
      some ⟨some 1, none, none, 15⟩ := by
  exact ⟨by decide, by decide⟩

omit [LinearOrder V] in
/-- C5: during transplant the only fatal assertion is the orphan-node check:
`shift_nodes` results in the panic exactly when `a`'s parent back-reference
is present but fails to resolve in the heap (`Weak::upgrade` returns
nothing); whenever the back-reference resolves — or is absent, `a` being the
root — the abort branch is unreachable and a normal state is returned. -/
theorem shift_nodes_panic_iff_parent_unresolved (bst : BstH V) (aId : Nat)
    (na : HNode V) (b : Option Nat) :
    (∃ msg, shift_nodes bst aId na b = ShiftResult.panic msg) ↔
    (∃ pId, na.parent = some pId ∧ heapLookup bst.heap pId = none) := by
  cases hp : na.parent with
  | none =>
    simp [shift_nodes, hp]
  | some pWeak =>
    cases hl : heapLookup bst.heap pWeak with
    | none =>
      simp [shift_nodes, hp, hl]
    | some np =>
      cases hnpl : np.left with
      | some leftId =>
        by_cases ha : aId = leftId
        · simp [shift_nodes, hp, hl, hnpl, ha]
        · cases b with
          | none => simp [shift_nodes, hp, hl, hnpl, ha]
          | some bId => simp [shift_nodes, hp, hl, hnpl, ha]
      | none =>
        simp [shift_nodes, hp, hl, hnpl]

end Arboretum
